import Mathlib

/-!
Verification of the weak-trainer module of `bob.learn.boosting`
(`xbob/boosting/core/trainers.py`): the `StumpTrainer` and `LutTrainer`
classes, shallowly embedded.

Modelling conventions:
* Feature matrices and gradient matrices are represented column-major, as a
  list of columns, because the code accesses them exclusively by column
  (`fea[:, i]`, `loss_grad[:, oi]`).
* numpy float arithmetic is modelled by exact rational arithmetic (`ℚ`);
  LUT feature codes are integers (`ℤ`), LUT entries are integers (`ℤ`).
* `numpy.argsort` is modelled by a sort of the (feature, weight) pairs by
  feature value; the properties proved below do not depend on the order in
  which equal feature values are arranged.
* `numpy.argmax` / `numpy.argmin` return the first index attaining the
  extremum; they are modelled by `argmaxIdx` / `argminIdx` below.
* Both `compute_weak_trainer` methods mutate the trainer object and return
  `self`; they are modelled as state-transition functions from the trainer
  record to the updated trainer record.  The returned "machine" is the very
  trainer record, not a copy.
-/

/-- Cumulative sums, as `numpy.cumsum`: entry `i` is the sum of the first
`i + 1` entries of the input. -/
def cumsum : List ℚ → List ℚ
  | [] => []
  | x :: xs => x :: (cumsum xs).map (fun y => x + y)

/-- The minimum of a list of rationals (`0` for the empty list, on which
`numpy.argmin` would raise instead). -/
def minQ : List ℚ → ℚ
  | [] => 0
  | x :: xs => xs.foldl min x

/-- The maximum of a list of rationals (`0` for the empty list, on which
`numpy.argmax` would raise instead). -/
def maxQ : List ℚ → ℚ
  | [] => 0
  | x :: xs => xs.foldl max x

/-- Index of the first occurrence of `t` in `l` (length of `l` if absent). -/
def findIdxQ (t : ℚ) : List ℚ → ℕ
  | [] => 0
  | x :: xs => if x = t then 0 else findIdxQ t xs + 1

/-- `numpy.argmin`: first index attaining the minimum. -/
def argminIdx (l : List ℚ) : ℕ := findIdxQ (minQ l) l

/-- `numpy.argmax`: first index attaining the maximum. -/
def argmaxIdx (l : List ℚ) : ℕ := findIdxQ (maxQ l) l

/-- Comparison of (feature value, weight) pairs by feature value, the key
used by `numpy.argsort(fea)` in `compute_thresh`. -/
abbrev pairLe (a b : ℚ × ℚ) : Prop := a.1 ≤ b.1

instance : IsTotal (ℚ × ℚ) pairLe := ⟨fun a b => le_total a.1 b.1⟩

instance : IsTrans (ℚ × ℚ) pairLe := ⟨fun _ _ _ h1 h2 => le_trans h1 h2⟩

/-- State of a `StumpTrainer` object: `threshold`, `polarity` and
`selected_indices` (the selected feature index), as set in
`StumpTrainer.__init__` / `compute_weak_trainer`. -/
structure StumpTrainer where
  threshold : ℚ
  polarity : ℚ
  selected_indices : ℕ
deriving Repr, DecidableEq

/-- `StumpTrainer.__init__`: threshold 0, polarity 0, selected index 0. -/
def StumpTrainer.init : StumpTrainer := ⟨0, 0, 0⟩

/-- The (feature value, weight) pairs sorted by feature value, where the
weights are the negated loss gradient: models lines 89-95 of
`compute_thresh` (`loss_grad = -loss_grad`, `argsort`, rearrangement). -/
def sortedPairs (fea loss_grad : List ℚ) : List (ℚ × ℚ) :=
  List.insertionSort pairLe (fea.zip (loss_grad.map (fun x => -x)))

/-- The gain vector of `compute_thresh`: with `grad_cs` the cumulative sums
of the sorted weights and `grad_sum` its last entry, `gain i = grad_sum -
grad_cs i` (lines 98-100). -/
def stumpGainList (fea loss_grad : List ℚ) : List ℚ :=
  let grad_cs := cumsum ((sortedPairs fea loss_grad).map Prod.snd)
  let grad_sum := grad_cs.getD (grad_cs.length - 1) 0
  grad_cs.map (fun c => grad_sum - c)

/-- The optimal split position of `compute_thresh`: the first index
maximizing the absolute gain (line 103). -/
def stumpOptId (fea loss_grad : List ℚ) : ℕ :=
  argmaxIdx ((stumpGainList fea loss_grad).map (fun x => |x|))

/-- The triple returned by `compute_thresh`. -/
structure ThreshResult where
  polarity : ℚ
  threshold : ℚ
  gain : ℚ
deriving Repr, DecidableEq

/-- `StumpTrainer.compute_thresh` (lines 71-118): weak-learner search over a
single feature column. -/
def StumpTrainer.compute_thresh (fea loss_grad : List ℚ) : ThreshResult :=
  let gain := stumpGainList fea loss_grad
  let opt_id := stumpOptId fea loss_grad
  let gain_max := |gain.getD opt_id 0|
  let sfea := (sortedPairs fea loss_grad).map Prod.fst
  let num_samp := fea.length
  let threshold := if opt_id = num_samp - 1 then sfea.getD opt_id 0
    else (sfea.getD opt_id 0 + sfea.getD (opt_id + 1) 0) / 2
  let polarity : ℚ := if gain_max = gain.getD opt_id 0 then -1 else 1
  ⟨polarity, threshold, gain_max⟩

/-- `StumpTrainer.compute_weak_trainer` (lines 34-66): runs `compute_thresh`
on every feature column, keeps the one of maximal gain, overwrites all three
fields of the trainer and returns `self`.  The prior state `_s` is never
read: every field is overwritten. -/
def StumpTrainer.compute_weak_trainer (_s : StumpTrainer) (fea : List (List ℚ))
    (loss_grad : List ℚ) : StumpTrainer :=
  let results := fea.map (fun col => StumpTrainer.compute_thresh col loss_grad)
  let opt_id := argmaxIdx (results.map (fun r => r.gain))
  let r := results.getD opt_id ⟨0, 0, 0⟩
  ⟨r.threshold, r.polarity, opt_id⟩

/-- `StumpTrainer.get_weak_scores` (lines 123-144): scores start as ones,
entries whose selected-feature value is `< threshold` become `-1`, and the
result is multiplied by the polarity. -/
def StumpTrainer.get_weak_scores (s : StumpTrainer) (test_features : List (List ℚ)) :
    List ℚ :=
  (test_features.getD s.selected_indices []).map
    (fun v => s.polarity * (if v < s.threshold then -1 else 1))

/-- State of a `LutTrainer` object.  `luts` is stored column-major: one list
of `num_entries` entries per output, so `luts[b, k]` of the code is entry `b`
of column `k` here. -/
structure LutTrainer where
  num_entries : ℕ
  luts : List (List ℤ)
  selection_type : String
  selected_indices : List ℕ
deriving Repr, DecidableEq

/-- `LutTrainer.__init__` (lines 156-163): `luts` all ones
(`num_entries × num_op`), `selected_indices` all zero, and `selection_type`
stored unchecked — the constructor performs no validation at all. -/
def LutTrainer.init (num_entries : ℕ) (selection_type : String) (num_op : ℕ) :
    LutTrainer :=
  ⟨num_entries, List.replicate num_op (List.replicate num_entries 1),
    selection_type, List.replicate num_op 0⟩

/-- Sum of the gradients of the samples whose feature code equals `c`:
models `sum(loss_grado[fval == hi])` for one bucket. -/
def sumMatching (c : ℤ) : List (ℚ × ℤ) → ℚ
  | [] => 0
  | p :: ps => (if p.2 = c then p.1 else 0) + sumMatching c ps

/-- The histogram-gradient over (gradient, code) pairs: one bucket per code
in `[0, num_entries)`.  Codes outside that range match no bucket. -/
def hgradPairs (num_entries : ℕ) (ps : List (ℚ × ℤ)) : List ℚ :=
  (List.range num_entries).map (fun hi : ℕ => sumMatching (hi : ℤ) ps)

/-- `LutTrainer.compute_hgrad` (lines 245-258): bucket the samples by their
feature code and sum the gradient within each bucket.  The loop runs `hi`
over `range(num_entries)` and masks with `fval == hi`, so a code outside
`[0, num_entries)` is silently ignored — no error path exists. -/
def LutTrainer.compute_hgrad (num_entries : ℕ) (loss_grado : List ℚ)
    (fval : List ℤ) : List ℚ :=
  hgradPairs num_entries (loss_grado.zip fval)

/-- `LutTrainer.compute_fgrad` (lines 217-239): per-(feature, output)
selection score `-sum(abs(hist_grad))`, a `D × K` matrix (row per feature). -/
def LutTrainer.compute_fgrad (num_entries : ℕ) (loss_grad : List (List ℚ))
    (fea : List (List ℤ)) : List (List ℚ) :=
  fea.map (fun fcol => loss_grad.map (fun gcol =>
    -(((LutTrainer.compute_hgrad num_entries gcol fcol).map (fun x => |x|)).sum)))

/-- `accum_loss` of the shared branch (line 202): the per-feature score
summed over all outputs (`numpy.sum(sum_loss, 1)`). -/
def accumLoss (num_entries : ℕ) (loss_grad : List (List ℚ))
    (fea : List (List ℤ)) : List ℚ :=
  (LutTrainer.compute_fgrad num_entries loss_grad fea).map List.sum

/-- One column of the lookup-table update `self.luts[fea_grad <= 0.0] = -1`
(line 210): positions whose `fea_grad` value is `≤ 0` become `-1`, all other
positions KEEP their previous value — they are never reset to `+1`. -/
def updateCol : List ℚ → List ℤ → List ℤ
  | _, [] => []
  | [], v :: vs => v :: updateCol [] vs
  | x :: xs, v :: vs => (if x ≤ 0 then -1 else v) :: updateCol xs vs

/-- The lookup-table update over all output columns (line 210). -/
def lutsUpdate : List (List ℤ) → List (List ℚ) → List (List ℤ)
  | [], _ => []
  | col :: cols, [] => col :: lutsUpdate cols []
  | col :: cols, fg :: fgs => updateCol fg col :: lutsUpdate cols fgs

/-- `LutTrainer.compute_weak_trainer` (lines 168-211).  `fea_grad` starts as
zeros (`num_entries × num_op`); the `'indep'` branch selects per-output
argmin features, the `'shared'` branch one argmin feature of the accumulated
loss; any other `selection_type` matches neither branch and leaves
`fea_grad` zero.  Finally `self.luts[fea_grad <= 0.0] = -1` and `self` is
returned. -/
def LutTrainer.compute_weak_trainer (s : LutTrainer) (fea : List (List ℤ))
    (loss_grad : List (List ℚ)) : LutTrainer :=
  let num_op := loss_grad.length
  let sum_loss := LutTrainer.compute_fgrad s.num_entries loss_grad fea
  if s.selection_type = "indep" then
    let sel := (List.range num_op).map
      (fun oi => argminIdx (sum_loss.map (fun row => row.getD oi 0)))
    let fea_grad := (List.range num_op).map (fun oi =>
      LutTrainer.compute_hgrad s.num_entries (loss_grad.getD oi [])
        (fea.getD (sel.getD oi 0) []))
    { s with luts := lutsUpdate s.luts fea_grad, selected_indices := sel }
  else if s.selection_type = "shared" then
    let selected_findex := argminIdx (sum_loss.map List.sum)
    let fea_grad := (List.range num_op).map (fun oi =>
      LutTrainer.compute_hgrad s.num_entries (loss_grad.getD oi [])
        (fea.getD selected_findex []))
    { s with luts := lutsUpdate s.luts fea_grad,
             selected_indices := List.replicate num_op selected_findex }
  else
    { s with luts := lutsUpdate s.luts
                (List.replicate num_op (List.replicate s.num_entries 0)) }

/-- A single lookup `self.luts[c, oi]` with numpy integer-indexing
semantics: an index in `[-num_entries, num_entries)` is accepted, a negative
one wrapping to `num_entries + c`; anything else raises `IndexError`. -/
def lutLookup (s : LutTrainer) (oi : ℕ) (c : ℤ) : Except Unit ℤ :=
  if -(s.num_entries : ℤ) ≤ c ∧ c < (s.num_entries : ℤ) then
    Except.ok ((s.luts.getD oi []).getD
      (if c < 0 then ((s.num_entries : ℤ) + c).toNat else c.toNat) 0)
  else
    Except.error ()

/-- `LutTrainer.get_weak_scores` (lines 263-274): for each output `oi`,
index column `oi` of the lookup table by the codes of the selected feature
column.  The only failure mode is numpy's `IndexError` on an out-of-range
code, modelled by `Except.error`. -/
def LutTrainer.get_weak_scores (s : LutTrainer) (fset : List (List ℤ)) :
    Except Unit (List (List ℤ)) :=
  (List.range s.luts.length).mapM (fun oi =>
    (fset.getD (s.selected_indices.getD oi 0) []).mapM (fun c => lutLookup s oi c))

/-! ### Helper lemmas -/

theorem foldl_min_le_init (l : List ℚ) (a : ℚ) : l.foldl min a ≤ a := by
  induction l generalizing a with
  | nil => exact le_refl a
  | cons x xs ih => exact (ih (min a x)).trans (min_le_left a x)

theorem foldl_min_le_of_mem (l : List ℚ) (a x : ℚ) (hx : x ∈ l) :
    l.foldl min a ≤ x := by
  induction l generalizing a with
  | nil => cases hx
  | cons y ys ih =>
    rcases List.mem_cons.mp hx with h | h
    · subst h
      exact (foldl_min_le_init ys (min a x)).trans (min_le_right a x)
    · exact ih (min a y) h

theorem minQ_le_of_mem (l : List ℚ) (x : ℚ) (hx : x ∈ l) : minQ l ≤ x := by
  cases l with
  | nil => cases hx
  | cons a l =>
    rcases List.mem_cons.mp hx with h | h
    · subst h; exact foldl_min_le_init l x
    · exact foldl_min_le_of_mem l a x h

theorem foldl_min_mem (l : List ℚ) (a : ℚ) :
    l.foldl min a = a ∨ l.foldl min a ∈ l := by
  induction l generalizing a with
  | nil => exact Or.inl rfl
  | cons x xs ih =>
    rcases ih (min a x) with h | h
    · rcases min_choice a x with hm | hm
      · exact Or.inl (by rw [List.foldl_cons, h, hm])
      · exact Or.inr (by rw [List.foldl_cons, h, hm]; exact List.mem_cons_self x xs)
    · exact Or.inr (List.mem_cons_of_mem x h)

theorem minQ_mem (l : List ℚ) (h : l ≠ []) : minQ l ∈ l := by
  cases l with
  | nil => exact absurd rfl h
  | cons a l =>
    rcases foldl_min_mem l a with h1 | h1
    · show l.foldl min a ∈ a :: l
      rw [h1]; exact List.mem_cons_self a l
    · exact List.mem_cons_of_mem a h1

theorem foldl_max_ge_init (l : List ℚ) (a : ℚ) : a ≤ l.foldl max a := by
  induction l generalizing a with
  | nil => exact le_refl a
  | cons x xs ih => exact (le_max_left a x).trans (ih (max a x))

theorem foldl_max_ge_of_mem (l : List ℚ) (a x : ℚ) (hx : x ∈ l) :
    x ≤ l.foldl max a := by
  induction l generalizing a with
  | nil => cases hx
  | cons y ys ih =>
    rcases List.mem_cons.mp hx with h | h
    · subst h
      exact (le_max_right a x).trans (foldl_max_ge_init ys (max a x))
    · exact ih (max a y) h

theorem maxQ_ge_of_mem (l : List ℚ) (x : ℚ) (hx : x ∈ l) : x ≤ maxQ l := by
  cases l with
  | nil => cases hx
  | cons a l =>
    rcases List.mem_cons.mp hx with h | h
    · subst h; exact foldl_max_ge_init l x
    · exact foldl_max_ge_of_mem l a x h

theorem foldl_max_mem (l : List ℚ) (a : ℚ) :
    l.foldl max a = a ∨ l.foldl max a ∈ l := by
  induction l generalizing a with
  | nil => exact Or.inl rfl
  | cons x xs ih =>
    rcases ih (max a x) with h | h
    · rcases max_choice a x with hm | hm
      · exact Or.inl (by rw [List.foldl_cons, h, hm])
      · exact Or.inr (by rw [List.foldl_cons, h, hm]; exact List.mem_cons_self x xs)
    · exact Or.inr (List.mem_cons_of_mem x h)

theorem maxQ_mem (l : List ℚ) (h : l ≠ []) : maxQ l ∈ l := by
  cases l with
  | nil => exact absurd rfl h
  | cons a l =>
    rcases foldl_max_mem l a with h1 | h1
    · show l.foldl max a ∈ a :: l
      rw [h1]; exact List.mem_cons_self a l
    · exact List.mem_cons_of_mem a h1

theorem findIdxQ_getD (t : ℚ) (l : List ℚ) (h : t ∈ l) :
    l.getD (findIdxQ t l) 0 = t := by
  induction l with
  | nil => cases h
  | cons x xs ih =>
    unfold findIdxQ
    by_cases hx : x = t
    · simp [hx]
    · rw [if_neg hx, List.getD_cons_succ]
      exact ih (by rcases List.mem_cons.mp h with h1 | h1
                   · exact absurd h1.symm hx
                   · exact h1)

theorem argminIdx_getD (l : List ℚ) (h : l ≠ []) :
    l.getD (argminIdx l) 0 = minQ l :=
  findIdxQ_getD (minQ l) l (minQ_mem l h)

theorem argminIdx_le (l : List ℚ) (h : l ≠ []) (i : ℕ) (hi : i < l.length) :
    l.getD (argminIdx l) 0 ≤ l.getD i 0 := by
  rw [argminIdx_getD l h]
  exact minQ_le_of_mem l _ (by rw [List.getD_eq_getElem l 0 hi]; exact List.getElem_mem hi)

theorem argmaxIdx_getD (l : List ℚ) (h : l ≠ []) :
    l.getD (argmaxIdx l) 0 = maxQ l :=
  findIdxQ_getD (maxQ l) l (maxQ_mem l h)

theorem argmaxIdx_ge (l : List ℚ) (h : l ≠ []) (i : ℕ) (hi : i < l.length) :
    l.getD i 0 ≤ l.getD (argmaxIdx l) 0 := by
  rw [argmaxIdx_getD l h]
  exact maxQ_ge_of_mem l _ (by rw [List.getD_eq_getElem l 0 hi]; exact List.getElem_mem hi)

theorem cumsum_length (l : List ℚ) : (cumsum l).length = l.length := by
  induction l with
  | nil => rfl
  | cons x xs ih => simp [cumsum, ih]

theorem getD_map_abs (l : List ℚ) (i : ℕ) (hi : i < l.length) :
    (l.map (fun x => |x|)).getD i 0 = |l.getD i 0| := by
  rw [List.getD_eq_getElem _ 0 (by simpa using hi), List.getD_eq_getElem l 0 hi,
    List.getElem_map]

theorem stumpGainList_length (fea g : List ℚ) (h : fea.length = g.length) :
    (stumpGainList fea g).length = fea.length := by
  simp [stumpGainList, cumsum_length, sortedPairs, List.length_insertionSort,
    List.length_zip, h]

theorem findIdxQ_lt_length (t : ℚ) (l : List ℚ) (h : t ∈ l) :
    findIdxQ t l < l.length := by
  induction l with
  | nil => cases h
  | cons x xs ih =>
    unfold findIdxQ
    by_cases hx : x = t
    · simp [hx]
    · rw [if_neg hx]
      simp only [List.length_cons, Nat.add_lt_add_iff_right]
      exact ih (by rcases List.mem_cons.mp h with h1 | h1
                   · exact absurd h1.symm hx
                   · exact h1)

theorem sortedPairs_map_fst (fea g : List ℚ) (h : fea.length = g.length) :
    (sortedPairs fea g).map Prod.fst = List.insertionSort (fun a b : ℚ => a ≤ b) fea := by
  apply List.eq_of_perm_of_sorted (r := fun a b : ℚ => a ≤ b)
  · have p1 : (sortedPairs fea g).Perm (fea.zip (g.map (fun x => -x))) :=
      List.perm_insertionSort pairLe _
    have p2 := p1.map Prod.fst
    rw [List.map_fst_zip fea _ (by simpa using le_of_eq h)] at p2
    exact p2.trans (List.perm_insertionSort _ fea).symm
  · have hs : List.Sorted pairLe (sortedPairs fea g) :=
      List.sorted_insertionSort pairLe _
    exact List.Pairwise.map Prod.fst (fun a b hab => hab) hs
  · exact List.sorted_insertionSort _ fea

theorem updateCol_mem (fg : List ℚ) (col : List ℤ) (v : ℤ)
    (hv : v ∈ updateCol fg col) : v = -1 ∨ v ∈ col := by
  induction col generalizing fg with
  | nil => cases fg <;> simp [updateCol] at hv
  | cons c cs ih =>
    cases fg with
    | nil =>
      simp only [updateCol] at hv
      rcases List.mem_cons.mp hv with h | h
      · exact Or.inr (h ▸ List.mem_cons_self c cs)
      · rcases ih [] h with h1 | h1
        · exact Or.inl h1
        · exact Or.inr (List.mem_cons_of_mem c h1)
    | cons x xs =>
      simp only [updateCol] at hv
      rcases List.mem_cons.mp hv with h | h
      · by_cases hx : x ≤ 0
        · rw [if_pos hx] at h; exact Or.inl h
        · rw [if_neg hx] at h; exact Or.inr (h ▸ List.mem_cons_self c cs)
      · rcases ih xs h with h1 | h1
        · exact Or.inl h1
        · exact Or.inr (List.mem_cons_of_mem c h1)

theorem lutsUpdate_pm (cols : List (List ℤ)) (fgs : List (List ℚ))
    (h : ∀ col ∈ cols, ∀ v ∈ col, v = -1 ∨ v = 1) :
    ∀ col ∈ lutsUpdate cols fgs, ∀ v ∈ col, v = -1 ∨ v = 1 := by
  induction cols generalizing fgs with
  | nil => intro col hc; simp [lutsUpdate] at hc
  | cons c cs ih =>
    intro col hc v hv
    cases fgs with
    | nil =>
      simp only [lutsUpdate] at hc
      rcases List.mem_cons.mp hc with h1 | h1
      · exact h c (List.mem_cons_self c cs) v (h1 ▸ hv)
      · exact ih [] (fun col2 hc2 => h col2 (List.mem_cons_of_mem c hc2)) col h1 v hv
    | cons fg fgs2 =>
      simp only [lutsUpdate] at hc
      rcases List.mem_cons.mp hc with h1 | h1
      · subst h1
        rcases updateCol_mem fg c v hv with h2 | h2
        · exact Or.inl h2
        · exact h c (List.mem_cons_self c cs) v h2
      · exact ih fgs2 (fun col2 hc2 => h col2 (List.mem_cons_of_mem c hc2)) col h1 v hv

theorem compute_weak_trainer_luts_shape (s : LutTrainer) (fea : List (List ℤ))
    (g : List (List ℚ)) :
    ∃ fgs, (LutTrainer.compute_weak_trainer s fea g).luts = lutsUpdate s.luts fgs := by
  simp only [LutTrainer.compute_weak_trainer]
  split
  · exact ⟨_, rfl⟩
  · split
    · exact ⟨_, rfl⟩
    · exact ⟨_, rfl⟩

theorem sum_map_range_zero (n : ℕ) (f : ℕ → ℚ) (h : ∀ i, i < n → f i = 0) :
    ((List.range n).map f).sum = 0 := by
  induction n with
  | zero => rfl
  | succ m ih =>
    rw [List.range_succ, List.map_append, List.sum_append]
    simp only [List.map_cons, List.map_nil, List.sum_cons, List.sum_nil]
    rw [h m (Nat.lt_succ_self m), ih (fun i hi => h i (hi.trans (Nat.lt_succ_self m)))]
    simp

theorem sum_map_range_add (n : ℕ) (f g : ℕ → ℚ) :
    ((List.range n).map (fun i => f i + g i)).sum
      = ((List.range n).map f).sum + ((List.range n).map g).sum := by
  induction n with
  | zero => simp
  | succ m ih =>
    rw [List.range_succ]
    simp only [List.map_append, List.sum_append, List.map_cons, List.sum_cons,
      List.map_nil, List.sum_nil, ih]
    ring

theorem sum_map_range_single (n : ℕ) (c : ℤ) (v : ℚ) (h0 : 0 ≤ c)
    (h1 : c < (n : ℤ)) :
    ((List.range n).map (fun hi : ℕ => if c = (hi : ℤ) then v else 0)).sum = v := by
  induction n with
  | zero => omega
  | succ m ih =>
    rw [List.range_succ, List.map_append, List.sum_append]
    by_cases hc : c = (m : ℤ)
    · rw [sum_map_range_zero m _ (fun i hi => if_neg (by omega))]
      simp [hc]
    · have hlt : c < (m : ℤ) := by omega
      simp only [List.map_cons, List.sum_cons, List.map_nil, List.sum_nil, if_neg hc,
        ih hlt]
      ring

theorem hgradPairs_sum (ne : ℕ) (ps : List (ℚ × ℤ))
    (h : ∀ p ∈ ps, 0 ≤ p.2 ∧ p.2 < (ne : ℤ)) :
    (hgradPairs ne ps).sum = (ps.map Prod.fst).sum := by
  induction ps with
  | nil =>
    have : hgradPairs ne [] = (List.range ne).map (fun _ : ℕ => (0 : ℚ)) := by
      simp [hgradPairs, sumMatching]
    rw [this, sum_map_range_zero ne _ (fun _ _ => rfl)]
    rfl
  | cons p ps ih =>
    have hstep : hgradPairs ne (p :: ps)
        = (List.range ne).map
            (fun hi : ℕ => (if p.2 = (hi : ℤ) then p.1 else 0) + sumMatching (hi : ℤ) ps) := by
      simp [hgradPairs, sumMatching]
    have h1 := h p (List.mem_cons_self p ps)
    rw [hstep, sum_map_range_add, sum_map_range_single ne p.2 p.1 h1.1 h1.2]
    simp only [List.map_cons, List.sum_cons]
    show p.1 + (hgradPairs ne ps).sum = p.1 + (ps.map Prod.fst).sum
    rw [ih (fun q hq => h q (List.mem_cons_of_mem p hq))]

theorem hgradPairs_drop (ne : ℕ) (v : ℚ) (c : ℤ) (ps : List (ℚ × ℤ))
    (hc : c < 0 ∨ (ne : ℤ) ≤ c) :
    hgradPairs ne ((v, c) :: ps) = hgradPairs ne ps := by
  unfold hgradPairs
  apply List.map_congr_left
  intro hi hhi
  have hne : ¬ (((v, c).2 : ℤ) = (hi : ℤ)) := by
    have := List.mem_range.mp hhi
    simp only []
    omega
  simp [sumMatching, hne]

theorem updateCol_zero_replicate (ne : ℕ) (v : ℤ) :
    updateCol (List.replicate ne (0 : ℚ)) (List.replicate ne v)
      = List.replicate ne (-1) := by
  induction ne with
  | zero => rfl
  | succ m ih => simp [List.replicate_succ, updateCol, ih]

theorem lutsUpdate_replicate (k ne : ℕ) (v : ℤ) :
    lutsUpdate (List.replicate k (List.replicate ne v))
      (List.replicate k (List.replicate ne (0 : ℚ)))
      = List.replicate k (List.replicate ne (-1)) := by
  induction k with
  | zero => rfl
  | succ m ih => simp [List.replicate_succ, lutsUpdate, updateCol_zero_replicate, ih]

/-! ### Claim theorems -/

/-- C1 (counterexample): `StumpTrainer.compute_weak_trainer` returns `self`
(line 66), so the machine returned by a round is the trainer object itself.
Training the same trainer again on different data changes the threshold
observed through the machine returned by the first round (here from `1/2` to
`2`), refuting the claimed immutability. -/
theorem C1_counterexample :
    (StumpTrainer.compute_weak_trainer
        (StumpTrainer.compute_weak_trainer StumpTrainer.init [[0, 1]] [-1, -1])
        [[0, 4]] [-1, -1]).threshold
      ≠ (StumpTrainer.compute_weak_trainer StumpTrainer.init [[0, 1]] [-1, -1]).threshold := by
  norm_num [StumpTrainer.compute_weak_trainer, StumpTrainer.compute_thresh, stumpGainList,
    stumpOptId, sortedPairs, cumsum, argmaxIdx, findIdxQ, maxQ, List.insertionSort,
    List.orderedInsert, StumpTrainer.init]

/-- C1 (amended): the machine a round returns is the trainer itself, not an
immutable snapshot; every later call to `compute_weak_trainer` overwrites
threshold, polarity and the selected feature index, and the overwritten
values depend only on that call's inputs — the prior state is never read. -/
theorem C1_theorem (s₁ s₂ : StumpTrainer) (fea : List (List ℚ)) (loss_grad : List ℚ) :
    StumpTrainer.compute_weak_trainer s₁ fea loss_grad
      = StumpTrainer.compute_weak_trainer s₂ fea loss_grad := rfl

/-- C2 (code bug witness): a `LutTrainer(num_entries = 2, 'shared', num_op = 1)`
reused for a second round keeps a stale `-1` in the lookup table.  Round 1 on
gradient `[[-1]]` sets both buckets of the table to `-1`; round 2 on gradient
`[[1]]` has recomputed histogram-gradient `[1, 0]` whose bucket 0 is `1 > 0`,
so the table entry should become `+1`, but `self.luts[fea_grad <= 0.0] = -1`
(line 210) never writes `+1` and the entry stays `-1`. -/
theorem C2_theorem :
    (LutTrainer.compute_weak_trainer
        (LutTrainer.compute_weak_trainer (LutTrainer.init 2 "shared" 1) [[0]] [[-1]])
        [[0]] [[1]]).luts = [[-1, -1]] ∧
    LutTrainer.compute_hgrad 2 [1] [0] = [1, 0] ∧ (0 : ℚ) < 1 := by
  refine ⟨?_, ?_, by norm_num⟩
  · norm_num [LutTrainer.compute_weak_trainer, LutTrainer.init, LutTrainer.compute_fgrad,
      LutTrainer.compute_hgrad, hgradPairs, sumMatching, List.range_succ, argminIdx, minQ,
      findIdxQ, lutsUpdate, updateCol]
  · norm_num [LutTrainer.compute_hgrad, hgradPairs, sumMatching, List.range_succ]

/-- C3: in `compute_thresh` the polarity is `-1` exactly when the maximal
absolute gain (which is `|gain[opt_id]|`, shown maximal by the last conjunct)
is equal — exact equality — to the signed gain at the optimal position, and
`+1` otherwise. -/
theorem C3_theorem (fea loss_grad : List ℚ) (h0 : 0 < fea.length)
    (hlen : fea.length = loss_grad.length) :
    (((StumpTrainer.compute_thresh fea loss_grad).polarity = -1) ↔
        |(stumpGainList fea loss_grad).getD (stumpOptId fea loss_grad) 0|
          = (stumpGainList fea loss_grad).getD (stumpOptId fea loss_grad) 0) ∧
    (((StumpTrainer.compute_thresh fea loss_grad).polarity = 1) ↔
        ¬ |(stumpGainList fea loss_grad).getD (stumpOptId fea loss_grad) 0|
          = (stumpGainList fea loss_grad).getD (stumpOptId fea loss_grad) 0) ∧
    (∀ j, j < (stumpGainList fea loss_grad).length →
      |(stumpGainList fea loss_grad).getD j 0|
        ≤ |(stumpGainList fea loss_grad).getD (stumpOptId fea loss_grad) 0|) := by
  have hpol : (StumpTrainer.compute_thresh fea loss_grad).polarity
      = if |(stumpGainList fea loss_grad).getD (stumpOptId fea loss_grad) 0|
            = (stumpGainList fea loss_grad).getD (stumpOptId fea loss_grad) 0
        then (-1 : ℚ) else 1 := rfl
  refine ⟨?_, ?_, ?_⟩
  · rw [hpol]
    by_cases hc : |(stumpGainList fea loss_grad).getD (stumpOptId fea loss_grad) 0|
        = (stumpGainList fea loss_grad).getD (stumpOptId fea loss_grad) 0
    · rw [if_pos hc]
      exact ⟨fun _ => hc, fun _ => rfl⟩
    · rw [if_neg hc]
      exact ⟨fun h1 => absurd h1 (by norm_num), fun h1 => absurd h1 hc⟩
  · rw [hpol]
    by_cases hc : |(stumpGainList fea loss_grad).getD (stumpOptId fea loss_grad) 0|
        = (stumpGainList fea loss_grad).getD (stumpOptId fea loss_grad) 0
    · rw [if_pos hc]
      exact ⟨fun h1 => absurd h1 (by norm_num), fun h1 => absurd hc h1⟩
    · rw [if_neg hc]
      exact ⟨fun _ => hc, fun _ => rfl⟩
  · intro j hj
    have hGlen : (stumpGainList fea loss_grad).length = fea.length :=
      stumpGainList_length fea loss_grad hlen
    have hAlen : ((stumpGainList fea loss_grad).map (fun x => |x|)).length
        = (stumpGainList fea loss_grad).length := by simp
    have hAne : (stumpGainList fea loss_grad).map (fun x => |x|) ≠ [] := by
      intro hnil
      rw [List.map_eq_nil_iff] at hnil
      rw [hnil] at hGlen
      simp at hGlen
      omega
    have hlt : argmaxIdx ((stumpGainList fea loss_grad).map (fun x => |x|))
        < ((stumpGainList fea loss_grad).map (fun x => |x|)).length :=
      findIdxQ_lt_length _ _ (maxQ_mem _ hAne)
    have e1 : ((stumpGainList fea loss_grad).map (fun x => |x|)).getD
          (argmaxIdx ((stumpGainList fea loss_grad).map (fun x => |x|))) 0
        = |(stumpGainList fea loss_grad).getD
            (argmaxIdx ((stumpGainList fea loss_grad).map (fun x => |x|))) 0| :=
      getD_map_abs _ _ (by rw [← hAlen]; exact hlt)
    have e2 : ((stumpGainList fea loss_grad).map (fun x => |x|)).getD j 0
        = |(stumpGainList fea loss_grad).getD j 0| := getD_map_abs _ j hj
    show |(stumpGainList fea loss_grad).getD j 0|
        ≤ |(stumpGainList fea loss_grad).getD
            (argmaxIdx ((stumpGainList fea loss_grad).map (fun x => |x|))) 0|
    rw [← e1, ← e2]
    exact argmaxIdx_ge _ hAne j (by rw [hAlen]; exact hj)

/-- C3 (witness): on the column `[0, 1]` with gradient `[-1, -1]` the gain at
the optimal position is `1 = |1|`, so the polarity is `-1`. -/
theorem C3_witness : (StumpTrainer.compute_thresh [(0 : ℚ), 1] [-1, -1]).polarity = -1 := by
  have h := C3_theorem [(0 : ℚ), 1] [-1, -1] (by norm_num) (by norm_num)
  exact h.1.mpr (by norm_num [stumpGainList, stumpOptId, sortedPairs, cumsum, argmaxIdx,
    findIdxQ, maxQ, List.insertionSort, List.orderedInsert])

/-- C4 (counterexample): constructing a `LutTrainer` with `selection_type`
outside `{indep, shared}` does not fail: the constructor stores the string
unchecked and yields a fully formed trainer, and even the first call of
`compute_weak_trainer` raises no error — it matches neither selection branch
and silently turns the whole table to `-1`. -/
theorem C4_counterexample :
    (LutTrainer.init 2 "bogus" 1).selection_type = "bogus" ∧
    (LutTrainer.init 2 "bogus" 1).luts = [[1, 1]] ∧
    (LutTrainer.compute_weak_trainer (LutTrainer.init 2 "bogus" 1) [[0]] [[1]]).luts
      = [[-1, -1]] := by
  refine ⟨rfl, rfl, ?_⟩
  have h1 : ¬ ("bogus" = "indep") := by decide
  have h2 : ¬ ("bogus" = "shared") := by decide
  norm_num [LutTrainer.compute_weak_trainer, LutTrainer.init, lutsUpdate, updateCol,
    List.replicate, h1, h2]

/-- C4 (amended): no validation of `selection_type` happens anywhere: an
invalid value is accepted at construction, and `compute_weak_trainer` then
falls through both branches, so `fea_grad` stays all zero, every lookup-table
entry becomes `-1`, and `selected_indices` is left at its initial zeros. -/
theorem C4_theorem (ne k : ℕ) (st : String) (fea : List (List ℤ))
    (g : List (List ℚ)) (h1 : st ≠ "indep") (h2 : st ≠ "shared")
    (hk : g.length = k) :
    (LutTrainer.compute_weak_trainer (LutTrainer.init ne st k) fea g).luts
      = List.replicate k (List.replicate ne (-1)) ∧
    (LutTrainer.compute_weak_trainer (LutTrainer.init ne st k) fea g).selected_indices
      = List.replicate k 0 := by
  simp only [LutTrainer.compute_weak_trainer]
  rw [show (LutTrainer.init ne st k).selection_type = st from rfl, if_neg h1, if_neg h2]
  constructor
  · show lutsUpdate (LutTrainer.init ne st k).luts
        (List.replicate g.length (List.replicate (LutTrainer.init ne st k).num_entries 0))
      = List.replicate k (List.replicate ne (-1))
    rw [show (LutTrainer.init ne st k).num_entries = ne from rfl,
      show (LutTrainer.init ne st k).luts
        = List.replicate k (List.replicate ne 1) from rfl, hk]
    exact lutsUpdate_replicate k ne 1
  · rfl

/-- C4 (witness): at `num_entries = 2`, `selection_type = "bogus"`,
`num_op = 1`, one sample of one feature, the amended statement holds. -/
theorem C4_witness :
    (LutTrainer.compute_weak_trainer (LutTrainer.init 2 "bogus" 1) [[0]] [[1]]).selected_indices
      = List.replicate 1 0 :=
  (C4_theorem 2 1 "bogus" [[0]] [[1]] (by decide) (by decide) rfl).2

/-- C5 (counterexample): a feature code outside `[0, num_entries)` does NOT
make training fail: `compute_hgrad` on code `7` with `num_entries = 2`
returns the ordinary histogram `[0, 0]`, silently dropping the gradient mass
`5` (the bucket sums no longer account for it). -/
theorem C5_counterexample :
    LutTrainer.compute_hgrad 2 [(5 : ℚ)] [(7 : ℤ)] = [0, 0] ∧
    ([(5 : ℚ)].sum = 5) ∧ ((0 : ℚ) + 0 ≠ 5) := by
  refine ⟨?_, by norm_num, by norm_num⟩
  norm_num [LutTrainer.compute_hgrad, hgradPairs, sumMatching, List.range_succ]

/-- C5 (amended): at train time the histogram accumulation never fails — a
sample whose code lies outside `[0, num_entries)` is silently ignored
(removing it leaves `compute_hgrad` unchanged).  At score time
`get_weak_scores` raises only for codes outside `[-num_entries, num_entries)`
(numpy index range); a negative in-range code is accepted and wraps to
`num_entries + c`, as the two concrete `get_weak_scores` evaluations show. -/
theorem C5_theorem :
    (∀ (ne : ℕ) (v : ℚ) (c : ℤ) (g : List ℚ) (codes : List ℤ),
      (c < 0 ∨ (ne : ℤ) ≤ c) →
      LutTrainer.compute_hgrad ne (v :: g) (c :: codes)
        = LutTrainer.compute_hgrad ne g codes) ∧
    (∀ (s : LutTrainer) (oi : ℕ) (c : ℤ),
      lutLookup s oi c = Except.error () ↔
        (c < -(s.num_entries : ℤ) ∨ (s.num_entries : ℤ) ≤ c)) ∧
    (∀ (s : LutTrainer) (oi : ℕ) (c : ℤ),
      -(s.num_entries : ℤ) ≤ c → c < 0 →
      lutLookup s oi c
        = Except.ok ((s.luts.getD oi []).getD ((s.num_entries : ℤ) + c).toNat 0)) ∧
    LutTrainer.get_weak_scores ⟨2, [[5, 7]], "indep", [0]⟩ [[-1]] = Except.ok [[7]] ∧
    LutTrainer.get_weak_scores ⟨2, [[5, 7]], "indep", [0]⟩ [[2]] = Except.error () := by
  refine ⟨?_, ?_, ?_, by rfl, by rfl⟩
  · intro ne v c g codes hc
    show hgradPairs ne ((v, c) :: g.zip codes) = hgradPairs ne (g.zip codes)
    exact hgradPairs_drop ne v c _ hc
  · intro s oi c
    unfold lutLookup
    by_cases h : -(s.num_entries : ℤ) ≤ c ∧ c < (s.num_entries : ℤ)
    · rw [if_pos h]
      constructor
      · intro he; exact Except.noConfusion he
      · intro hr; exact absurd hr (by omega)
    · rw [if_neg h]
      constructor
      · intro _; omega
      · intro _; rfl
  · intro s oi c h1 h2
    rw [lutLookup, if_pos (⟨h1, by omega⟩ : _ ∧ _), if_pos h2]

/-- C5 (witness): the train-time part of the amended statement at
`num_entries = 2`, gradient `5`, out-of-range code `7`. -/
theorem C5_witness :
    LutTrainer.compute_hgrad 2 [(5 : ℚ)] [(7 : ℤ)] = LutTrainer.compute_hgrad 2 [] [] :=
  C5_theorem.1 2 5 7 [] [] (by decide)

/-- C6: with `selection_type = 'shared'`, `compute_weak_trainer` selects the
single feature index minimizing the per-feature score summed over all
outputs (`accum_loss`), fills all `num_op` entries of `selected_indices`
with that one index, and the chosen index attains the minimum of
`accum_loss`. -/
theorem C6_theorem (s : LutTrainer) (fea : List (List ℤ))
    (loss_grad : List (List ℚ)) (hsel : s.selection_type = "shared")
    (hD : fea ≠ []) :
    (LutTrainer.compute_weak_trainer s fea loss_grad).selected_indices
      = List.replicate loss_grad.length
          (argminIdx (accumLoss s.num_entries loss_grad fea)) ∧
    ∀ i, i < (accumLoss s.num_entries loss_grad fea).length →
      (accumLoss s.num_entries loss_grad fea).getD
          (argminIdx (accumLoss s.num_entries loss_grad fea)) 0
        ≤ (accumLoss s.num_entries loss_grad fea).getD i 0 := by
  have hacc : accumLoss s.num_entries loss_grad fea ≠ [] := by
    intro h
    have hl : (accumLoss s.num_entries loss_grad fea).length = 0 := by rw [h]; rfl
    rw [show (accumLoss s.num_entries loss_grad fea).length = fea.length from by
      simp [accumLoss, LutTrainer.compute_fgrad]] at hl
    exact hD (List.length_eq_zero.mp hl)
  constructor
  · simp only [LutTrainer.compute_weak_trainer]
    have hne : s.selection_type ≠ "indep" := by rw [hsel]; decide
    rw [if_neg hne, if_pos hsel]
    rfl
  · intro i hi
    exact argminIdx_le _ hacc i hi

/-- C6 (witness): the shared-selection statement at `num_entries = 2`, one
output, one feature, one sample. -/
theorem C6_witness :
    (LutTrainer.compute_weak_trainer (LutTrainer.init 2 "shared" 1)
        [[0]] [[-1]]).selected_indices
      = List.replicate 1 (argminIdx (accumLoss 2 [[-1]] [[0]])) :=
  (C6_theorem (LutTrainer.init 2 "shared" 1) [[0]] [[-1]] rfl (by decide)).1

/-- C7: the threshold of `compute_thresh` is the midpoint of the sorted
feature values at the optimal position and the next position, except when
the optimal position is the last sample, where it is that feature value
itself. -/
theorem C7_theorem (fea loss_grad : List ℚ) (h0 : 0 < fea.length)
    (hlen : fea.length = loss_grad.length) :
    (StumpTrainer.compute_thresh fea loss_grad).threshold
      = if stumpOptId fea loss_grad = fea.length - 1 then
          (List.insertionSort (fun a b : ℚ => a ≤ b) fea).getD
            (stumpOptId fea loss_grad) 0
        else
          ((List.insertionSort (fun a b : ℚ => a ≤ b) fea).getD
              (stumpOptId fea loss_grad) 0
            + (List.insertionSort (fun a b : ℚ => a ≤ b) fea).getD
                (stumpOptId fea loss_grad + 1) 0) / 2 := by
  have hth : (StumpTrainer.compute_thresh fea loss_grad).threshold
      = if stumpOptId fea loss_grad = fea.length - 1 then
          ((sortedPairs fea loss_grad).map Prod.fst).getD (stumpOptId fea loss_grad) 0
        else (((sortedPairs fea loss_grad).map Prod.fst).getD (stumpOptId fea loss_grad) 0
            + ((sortedPairs fea loss_grad).map Prod.fst).getD
                (stumpOptId fea loss_grad + 1) 0) / 2 := rfl
  rw [hth, sortedPairs_map_fst fea loss_grad hlen]

/-- C7 (witness): the threshold statement at `fea = [0, 1]`,
`loss_grad = [-1, -1]`. -/
theorem C7_witness :
    (StumpTrainer.compute_thresh [(0 : ℚ), 1] [-1, -1]).threshold
      = if stumpOptId [(0 : ℚ), 1] [-1, -1] = [(0 : ℚ), 1].length - 1 then
          (List.insertionSort (fun a b : ℚ => a ≤ b) [(0 : ℚ), 1]).getD
            (stumpOptId [(0 : ℚ), 1] [-1, -1]) 0
        else
          ((List.insertionSort (fun a b : ℚ => a ≤ b) [(0 : ℚ), 1]).getD
              (stumpOptId [(0 : ℚ), 1] [-1, -1]) 0
            + (List.insertionSort (fun a b : ℚ => a ≤ b) [(0 : ℚ), 1]).getD
                (stumpOptId [(0 : ℚ), 1] [-1, -1] + 1) 0) / 2 :=
  C7_theorem [(0 : ℚ), 1] [-1, -1] (by norm_num) (by norm_num)

/-- C8 (counterexample): a freshly constructed `StumpTrainer` has
`polarity = 0` (set in `__init__`), so `get_weak_scores` returns `0`, which
is neither `-1` nor `+1` — the claim fails for trainers that have not been
through `compute_weak_trainer`. -/
theorem C8_counterexample :
    StumpTrainer.get_weak_scores StumpTrainer.init [[0]] = [0] ∧
    ¬ ((0 : ℚ) = -1 ∨ (0 : ℚ) = 1) := by
  constructor
  · norm_num [StumpTrainer.get_weak_scores, StumpTrainer.init]
  · norm_num

/-- C8 (amended): for a trainer whose polarity is `-1` or `+1` (as set by any
completed `compute_weak_trainer` round), every weak score equals
`polarity * (+1 if feature ≥ threshold else -1)` and lies in `{-1, +1}`; the
freshly constructed trainer (polarity `0`) instead returns all-zero scores. -/
theorem C8_theorem (s : StumpTrainer) (test : List (List ℚ))
    (hp : s.polarity = -1 ∨ s.polarity = 1) :
    ∀ i, i < (test.getD s.selected_indices []).length →
      ((s.get_weak_scores test).getD i 0
          = s.polarity * (if (test.getD s.selected_indices []).getD i 0 < s.threshold
              then -1 else 1)) ∧
      ((s.get_weak_scores test).getD i 0 = -1 ∨ (s.get_weak_scores test).getD i 0 = 1) := by
  intro i hi
  have hmap : (s.get_weak_scores test).getD i 0
      = s.polarity * (if (test.getD s.selected_indices []).getD i 0 < s.threshold
          then -1 else 1) := by
    show ((test.getD s.selected_indices []).map
        (fun v => s.polarity * (if v < s.threshold then -1 else 1))).getD i 0 = _
    rw [List.getD_eq_getElem _ 0 (by simpa using hi), List.getElem_map,
      List.getD_eq_getElem _ 0 hi]
  refine ⟨hmap, ?_⟩
  rw [hmap]
  rcases hp with hp | hp <;> rw [hp] <;>
    by_cases hc : (test.getD s.selected_indices []).getD i 0 < s.threshold
  · rw [if_pos hc]; norm_num
  · rw [if_neg hc]; norm_num
  · rw [if_pos hc]; norm_num
  · rw [if_neg hc]; norm_num

/-- C8 (witness): the amended statement for the trained state
`⟨threshold 0, polarity 1, index 0⟩` on the column `[5]`, at entry `0`. -/
theorem C8_witness :
    (((StumpTrainer.mk 0 1 0).get_weak_scores [[(5 : ℚ)]]).getD 0 0
        = (StumpTrainer.mk 0 1 0).polarity *
          (if ([[(5 : ℚ)]].getD (StumpTrainer.mk 0 1 0).selected_indices []).getD 0 0
              < (StumpTrainer.mk 0 1 0).threshold then -1 else 1)) ∧
    (((StumpTrainer.mk 0 1 0).get_weak_scores [[(5 : ℚ)]]).getD 0 0 = -1 ∨
      ((StumpTrainer.mk 0 1 0).get_weak_scores [[(5 : ℚ)]]).getD 0 0 = 1) :=
  C8_theorem (StumpTrainer.mk 0 1 0) [[(5 : ℚ)]] (Or.inr rfl) 0 (by decide)

/-- C9: every entry of a freshly constructed trainer's `luts` is `1` (hence
in `{-1, +1}`), and membership of all entries in `{-1, +1}` is preserved by
`compute_weak_trainer` for every `selection_type` and all inputs, because the
update only ever writes `-1` or keeps the previous entry. -/
theorem C9_theorem :
    (∀ (ne k : ℕ) (st : String),
      ∀ col ∈ (LutTrainer.init ne st k).luts, ∀ v ∈ col, v = -1 ∨ v = 1) ∧
    (∀ (s : LutTrainer) (fea : List (List ℤ)) (loss_grad : List (List ℚ)),
      (∀ col ∈ s.luts, ∀ v ∈ col, v = -1 ∨ v = 1) →
      ∀ col ∈ (LutTrainer.compute_weak_trainer s fea loss_grad).luts,
        ∀ v ∈ col, v = -1 ∨ v = 1) := by
  constructor
  · intro ne k st col hc v hv
    have h1 := List.eq_of_mem_replicate hc
    rw [h1] at hv
    exact Or.inr (List.eq_of_mem_replicate hv)
  · intro s fea loss_grad h col hc v hv
    obtain ⟨fgs, hfgs⟩ := compute_weak_trainer_luts_shape s fea loss_grad
    rw [hfgs] at hc
    exact lutsUpdate_pm s.luts fgs h col hc v hv

/-- C9 (witness): the preservation statement applied to a concrete trainer
whose table mixes `1` and `-1`: the hypothesis holds for its table, and the
entry `-1` of the updated table's column `[1, -1]` is in `{-1, +1}`. -/
theorem C9_witness :
    (∀ col ∈ (LutTrainer.mk 2 [[1, -1]] "shared" [0]).luts, ∀ v ∈ col, v = -1 ∨ v = 1) ∧
    ((-1 : ℤ) = -1 ∨ (-1 : ℤ) = 1) := by
  refine ⟨by decide, ?_⟩
  have hluts : (LutTrainer.compute_weak_trainer (LutTrainer.mk 2 [[1, -1]] "shared" [0])
      [[0]] [[1]]).luts = [[1, -1]] := by
    norm_num [LutTrainer.compute_weak_trainer, LutTrainer.compute_fgrad,
      LutTrainer.compute_hgrad, hgradPairs, sumMatching, List.range_succ, argminIdx,
      minQ, findIdxQ, lutsUpdate, updateCol]
  exact C9_theorem.2 (LutTrainer.mk 2 [[1, -1]] "shared" [0]) [[0]] [[1]] (by decide)
    [1, -1] (by rw [hluts]; exact List.mem_cons_self _ _) (-1)
    (List.mem_cons_of_mem 1 (List.mem_cons_self (-1) []))

/-- C10: when every feature code lies in `[0, num_entries)`, the bucket sums
of `compute_hgrad` add up to the total gradient mass — the histogram is a
partition-preserving accumulation. -/
theorem C10_theorem (ne : ℕ) (loss_grado : List ℚ) (fval : List ℤ)
    (hlen : loss_grado.length = fval.length)
    (hc : ∀ c ∈ fval, 0 ≤ c ∧ c < (ne : ℤ)) :
    (LutTrainer.compute_hgrad ne loss_grado fval).sum = loss_grado.sum := by
  have h1 : ∀ p ∈ loss_grado.zip fval, 0 ≤ p.2 ∧ p.2 < (ne : ℤ) := by
    intro p hp
    obtain ⟨a, b⟩ := p
    exact hc b (List.of_mem_zip hp).2
  rw [LutTrainer.compute_hgrad, hgradPairs_sum ne _ h1,
    List.map_fst_zip _ _ (le_of_eq hlen)]

/-- C10 (witness): the conservation statement at `num_entries = 2`,
gradients `[2, 3]`, codes `[0, 1]`. -/
theorem C10_witness :
    (LutTrainer.compute_hgrad 2 [(2 : ℚ), 3] [(0 : ℤ), 1]).sum = [(2 : ℚ), 3].sum :=
  C10_theorem 2 [(2 : ℚ), 3] [(0 : ℤ), 1] rfl (by decide)
